import Mathlib

/-!
Shallow embedding of the documentation-audit scripts
(`scripts/audit-tool-docs.py` and `scripts/extract-tool-names.py`).

Text is modelled as `List Char` (Python `str` slicing and `in` are by code
point).  The two concrete regular expressions used by the scripts are
embedded as deterministic matchers: for these particular patterns greedy
and lazy sub-matches are forced, so a single-pass matcher computes exactly
what `re.finditer` / `re.findall` produce, and scanning advances one
character on failure and resumes at the match end on success, as
`re.finditer` does.  File discovery (glob, `.test.ts` exclusion) is an
external collaborator per the spec; the extractors here consume
(label, text) pairs.
-/

set_option maxRecDepth 8000

/-- The double-quote character, one of the two delimiters accepted by `["\']`. -/
def dq : Char := Char.ofNat 34

/-- The single-quote character, the other delimiter accepted by `["\']`. -/
def sqc : Char := Char.ofNat 39

/-- An opening curly brace. -/
def lbrace : Char := Char.ofNat 123

/-- A closing curly brace: the one character the lazy gap `[^}]*?` may not cross. -/
def rbrace : Char := Char.ofNat 125

/-- Membership in the character class `["\']`. -/
def isQuote (c : Char) : Bool := c == dq || c == sqc

/-- Membership in the character class `\s` (ASCII whitespace as used by `re`). -/
def isWs (c : Char) : Bool :=
  c == Char.ofNat 32 || c == Char.ofNat 9 || c == Char.ofNat 10 ||
  c == Char.ofNat 13 || c == Char.ofNat 11 || c == Char.ofNat 12

/-- Membership in the character class `[^"\']`. -/
def nonQ (c : Char) : Bool := !(isQuote c)

/-- Membership in the character class `[a-z_]`. -/
def isIdC (c : Char) : Bool := (decide ('a' ≤ c) && decide (c ≤ 'z')) || c == '_'

/-- The literal marker `server.registerTool(` opening both registration patterns. -/
def regLit : List Char := "server.registerTool(".toList

/-- The literal `description:` inside the full registration pattern. -/
def descLit : List Char := "description:".toList

/-- The fixed namespace used by `startswith` filtering and the doc-mention pattern. -/
def nsLit : List Char := "spectree__".toList

/-- The literal deprecation marker `DEPRECATED`. -/
def deprLit : List Char := "DEPRECATED".toList

/-- The warning glyph (U+26A0 U+FE0F), the second deprecation marker. -/
def glyphL : List Char := [Char.ofNat 0x26A0, Char.ofNat 0xFE0F]

/-- The ellipsis appended to truncated descriptions. -/
def elip : List Char := "...".toList

/-- `dropLit lit s` returns `some r` with `s = lit ++ r` when `lit` is a literal
prefix of `s`, and `none` otherwise. -/
def dropLit : List Char → List Char → Option (List Char)
  | [], s => some s
  | _ :: _, [] => none
  | l :: ls, c :: cs => if l = c then dropLit ls cs else none

/-- Boolean prefix test (Python `str.startswith`). -/
def litPre (p s : List Char) : Bool := (dropLit p s).isSome

/-- Boolean contiguous-substring test (Python `needle in hay`). -/
def strIn (n : List Char) : List Char → Bool
  | [] => litPre n []
  | s@(_ :: t) => litPre n s || strIn n t

/-- Lexicographic order on code points, as Python `<` on `str` (used by `sorted`). -/
def lexLe : List Char → List Char → Bool
  | [], _ => true
  | _ :: _, [] => false
  | a :: xs, b :: ys => if a = b then lexLe xs ys else decide (a < b)

/-- Stable insertion used by `sortIns`. -/
def insSorted {α : Type} (le : α → α → Bool) (x : α) : List α → List α
  | [] => [x]
  | y :: t => if le x y then x :: y :: t else y :: insSorted le x t

/-- Stable sort modelling Python `sorted`. -/
def sortIns {α : Type} (le : α → α → Bool) (l : List α) : List α :=
  List.foldr (insSorted le) [] l

/-- Dictionary lookup on an association list with unique keys (Python `d[k]` / `k in d`). -/
def dlookup {V : Type} (k : List Char) : List (List Char × V) → Option V
  | [] => none
  | (k0, v0) :: t => if k0 = k then some v0 else dlookup k t

/-- Python `k in d`. -/
def hasKey {V : Type} (k : List Char) (m : List (List Char × V)) : Bool :=
  (dlookup k m).isSome

/-- Python `d[k] = v`: replace in place, or append a new key at the end. -/
def dictSet {V : Type} : List (List Char × V) → List Char → V → List (List Char × V)
  | [], k, v => [(k, v)]
  | (k0, v0) :: t, k, v => if k0 = k then (k0, v) :: t else (k0, v0) :: dictSet t k v

/-- Python `defaultdict(list); d[k].append(v)`. -/
def ddApp : List (List Char × List (List Char)) → List Char → List Char →
    List (List Char × List (List Char))
  | [], k, v => [(k, [v])]
  | (k0, vs) :: t, k, v =>
    if k0 = k then (k0, vs ++ [v]) :: t else (k0, vs) :: ddApp t k v

/-- Read a defaultdict entry (empty list when the key was never touched). -/
def dget (m : List (List Char × List (List Char))) (k : List Char) : List (List Char) :=
  (dlookup k m).getD []

/-- First-`some` choice, used to state the dictionary-overwrite lemma. -/
def oOr {α : Type} : Option α → Option α → Option α
  | some v, _ => some v
  | none, b => b

/-- Python `str.find`: index of the first occurrence, as an `Option`. -/
def pyFind (n : List Char) : List Char → Option Nat
  | [] => if litPre n [] then some 0 else none
  | c :: t => if litPre n (c :: t) then some 0 else Option.map (· + 1) (pyFind n t)

/-- Python `str.find`: index of the first occurrence, `-1` when absent. -/
def pyFindI (n h : List Char) : Int :=
  match pyFind n h with
  | some k => (k : Int)
  | none => -1

/-- Python slice `s[:i]` including the negative-index convention. -/
def pySliceTo (s : List Char) (i : Int) : List Char :=
  if 0 ≤ i then s.take i.toNat else s.take (s.length - min s.length i.natAbs)

/-- Tail of the full registration pattern from inside the lazy gap:
`description:\s*["\']([^"\']+)` attempted at the current point, returning the
captured description and the text after the match end. -/
def tryDescTail (s : List Char) : Option (List Char × List Char) :=
  match dropLit descLit s with
  | none => none
  | some r1 =>
    match List.dropWhile isWs r1 with
    | [] => none
    | c :: cs =>
      if isQuote c then
        if (List.takeWhile nonQ cs).isEmpty then none
        else some (List.takeWhile nonQ cs, List.dropWhile nonQ cs)
      else none

/-- The lazy gap `[^}]*?` followed by the description tail: at each point first
try the tail (lazy preference), otherwise consume one non-`}` character. -/
def matchAfterBrace : List Char → Option (List Char × List Char)
  | [] => none
  | c :: cs =>
    match tryDescTail (c :: cs) with
    | some p => some p
    | none => if c = rbrace then none else matchAfterBrace cs

/-- The full registration pattern of `audit-tool-docs.py`
(`server\.registerTool\(\s*["\']([^"\']+)["\'],\s*\{[^}]*?description:\s*["\']([^"\']+)`)
attempted at the start of `s`; on success returns (identifier, description,
text after the match end). -/
def matchAt (s : List Char) : Option (List Char × List Char × List Char) :=
  match dropLit regLit s with
  | none => none
  | some r1 =>
    match List.dropWhile isWs r1 with
    | [] => none
    | c :: cs =>
      if isQuote c then
        match List.dropWhile nonQ cs with
        | [] => none
        | q :: r4 =>
          if isQuote q then
            if (List.takeWhile nonQ cs).isEmpty then none
            else
              match r4 with
              | [] => none
              | a :: r5 =>
                if a = ',' then
                  match List.dropWhile isWs r5 with
                  | [] => none
                  | b :: r7 =>
                    if b = lbrace then
                      match matchAfterBrace r7 with
                      | some p => some (List.takeWhile nonQ cs, p.1, p.2)
                      | none => none
                    else none
                else none
          else none
      else none

/-- The name-only registration pattern of `extract-tool-names.py`
(`server\.registerTool\(\s*["\']([^"\']+)["\']`) attempted at the start of `s`. -/
def matchAtN (s : List Char) : Option (List Char × List Char) :=
  match dropLit regLit s with
  | none => none
  | some r1 =>
    match List.dropWhile isWs r1 with
    | [] => none
    | c :: cs =>
      if isQuote c then
        match List.dropWhile nonQ cs with
        | [] => none
        | q :: r4 =>
          if isQuote q then
            if (List.takeWhile nonQ cs).isEmpty then none
            else some (List.takeWhile nonQ cs, r4)
          else none
      else none

/-- The doc-mention pattern `spectree__[a-z_]+` attempted at the start of `s`. -/
def matchMention (s : List Char) : Option (List Char × List Char) :=
  match dropLit nsLit s with
  | none => none
  | some r =>
    if (List.takeWhile isIdC r).isEmpty then none
    else some (nsLit ++ List.takeWhile isIdC r, List.dropWhile isIdC r)

/-- Generic left-to-right non-overlapping scan (`re.findall`): advance one
character on failure, resume after the match end on success.  Fuel-driven so
that it computes by kernel reduction; any fuel at least the text length gives
the same result. -/
def scanWith {α : Type} (step : List Char → Option (α × List Char)) :
    Nat → List Char → List α
  | 0, _ => []
  | fuel + 1, s =>
    match s with
    | [] => []
    | c :: cs =>
      match step (c :: cs) with
      | some (a, r) => a :: scanWith step fuel r
      | none => scanWith step fuel cs

/-- `re.findall` for the name-only registration pattern. -/
def scanNames (s : List Char) : List (List Char) := scanWith matchAtN s.length s

/-- `re.findall` for the doc-mention pattern. -/
def scanMentions (s : List Char) : List (List Char) := scanWith matchMention s.length s

/-- Position-tracking scan for the full registration pattern (`re.finditer`),
recording each match start for the deprecation window.  Fuel-driven. -/
def scanRegsF : Nat → List Char → Nat → List (Nat × List Char × List Char)
  | 0, _, _ => []
  | fuel + 1, s, pos =>
    match s with
    | [] => []
    | c :: cs =>
      match matchAt (c :: cs) with
      | some (n, d, r) =>
        (pos, n, d) :: scanRegsF fuel r (pos + ((c :: cs).length - r.length))
      | none => scanRegsF fuel cs (pos + 1)

/-- `re.finditer` for the full registration pattern, with absolute match starts. -/
def scanRegs (s : List Char) (pos : Nat) : List (Nat × List Char × List Char) :=
  scanRegsF s.length s pos

/-- A record of the source extractor's `tools` dictionary. -/
structure ToolRec where
  file : List Char
  deprecated : Bool
  description : List Char
deriving DecidableEq

/-- Deprecation heuristic of `audit-tool-docs.py`: look for `DEPRECATED` or the
warning glyph in the 200 characters from the match start.  (The script also
slices 500 characters of `preceding` context but never uses them.) -/
def deprWin (content : List Char) (pos : Nat) : Bool :=
  strIn deprLit (List.take 200 (List.drop pos content)) ||
  strIn glyphL (List.take 200 (List.drop pos content))

/-- Build the dictionary value stored for one match of the full pattern. -/
def mkRec (file content : List Char) (pos : Nat) (desc : List Char) : ToolRec :=
  ⟨file, deprWin content pos,
    if 100 < desc.length then List.take 100 desc ++ elip else desc⟩

/-- Per-file half of `extract_tools_from_source`: all matches of the full
pattern, filtered to the namespace, as (identifier, record) pairs in match
order. -/
def extractFile (file content : List Char) : List (List Char × ToolRec) :=
  List.filterMap
    (fun t => if litPre nsLit t.2.1 then some (t.2.1, mkRec file content t.1 t.2.2) else none)
    (scanRegs content 0)

/-- Successive `tools[tool_name] = ...` assignments. -/
def writeAll (m : List (List Char × ToolRec)) (es : List (List Char × ToolRec)) :
    List (List Char × ToolRec) :=
  List.foldl (fun m e => dictSet m e.1 e.2) m es

/-- The dictionary one file alone would produce. -/
def fileDict (file content : List Char) : List (List Char × ToolRec) :=
  writeAll [] (extractFile file content)

/-- `extract_tools_from_source` over (fileLabel, text) pairs: files are
processed in sorted-by-label order and duplicate identifiers are overwritten. -/
def extract_tools_from_source (files : List (List Char × List Char)) :
    List (List Char × ToolRec) :=
  List.foldl (fun m fc => writeAll m (extractFile fc.1 fc.2)) []
    (sortIns (fun p q => lexLe p.1 q.1) files)

/-- `set(re.findall(...))` of one document: the distinct mentions. -/
def mset (t : List Char) : List (List Char) := (scanMentions t).dedup

/-- `extract_tools_from_docs` over (docLabel, text) pairs: per document, each
distinct mention appends the document label once (`doc_mentions[name].append`).
Under the script's flat glob the recorded `Path(doc_file).name` labels order
exactly as the sorted paths do. -/
def extract_tools_from_docs (docs : List (List Char × List Char)) :
    List (List Char × List (List Char)) :=
  List.foldl (fun m dt => List.foldl (fun m n => ddApp m n dt.1) m (mset dt.2)) []
    (sortIns (fun p q => lexLe p.1 q.1) docs)

/-- A record of `extract-tool-names.py`'s `tools` list. -/
structure NameRec where
  name : List Char
  file : List Char
  deprecated : Bool
deriving DecidableEq

/-- Per-file extraction of `extract-tool-names.py`: every name-pattern match
with the namespace becomes a record, deprecated iff `DEPRECATED` occurs in
`content[:content.find(name)]`. -/
def extractNamesFile (file content : List Char) : List NameRec :=
  List.filterMap
    (fun n =>
      if litPre nsLit n then
        some ⟨n, file, strIn deprLit (pySliceTo content (pyFindI n content))⟩
      else none)
    (scanNames content)

/-- `sorted(d.keys())`. -/
def keysSorted {V : Type} (m : List (List Char × V)) : List (List Char) :=
  sortIns lexLe (List.map Prod.fst m)

/-- Reconciler set 1: documented identifiers absent from source. -/
def not_in_source (S : List (List Char × ToolRec))
    (D : List (List Char × List (List Char))) : List (List Char) :=
  List.filter (fun k => !(hasKey k S)) (keysSorted D)

/-- `source_tools[tool_name]['deprecated']`, guarded by `tool_name in source_tools`. -/
def deprOf (S : List (List Char × ToolRec)) (k : List Char) : Bool :=
  match dlookup k S with
  | some r => r.deprecated
  | none => false

/-- Reconciler set 2: documented identifiers that source marks deprecated. -/
def deprecated_in_docs (S : List (List Char × ToolRec))
    (D : List (List Char × List (List Char))) : List (List Char) :=
  List.filter (fun k => hasKey k S && deprOf S k) (keysSorted D)

/-- Reconciler set 3: source identifiers never mentioned in docs. -/
def not_documented (S : List (List Char × ToolRec))
    (D : List (List Char × List (List Char))) : List (List Char) :=
  List.filter (fun k => !(hasKey k D)) (keysSorted S)

/-- The script's final verdict: `if not_in_source or deprecated_in_docs` it
prints AUDIT FAILED, otherwise AUDIT PASSED. -/
def auditFailed (S : List (List Char × ToolRec))
    (D : List (List Char × List (List Char))) : Bool :=
  !(not_in_source S D).isEmpty || !(deprecated_in_docs S D).isEmpty

/-- A registration construct whose marker, quoted identifier and quoted
description field are separated only by whitespace runs and, between the
opening brace and the description keyword, characters other than `}`. -/
def regConstruct (ws1 : List Char) (q1 : Char) (name : List Char) (q2 : Char)
    (ws2 mid ws3 : List Char) (q3 : Char) (desc : List Char) : List Char :=
  regLit ++ ws1 ++ q1 :: name ++ q2 :: ',' :: ws2 ++ lbrace :: mid ++
    descLit ++ ws3 ++ q3 :: desc

/-! ### Concrete inputs used to exercise the pipeline -/

/-- Label `a.ts`. -/
def aLbl : List Char := "a.ts".toList

/-- Label `b.ts`. -/
def bLbl : List Char := "b.ts".toList

/-- A registration of `spectree__dup` whose description window contains
`DEPRECATED`. -/
def caC : List Char :=
  regLit ++ [dq] ++ "spectree__dup".toList ++ [dq] ++ (',' :: ' ' :: [lbrace]) ++
    "description: ".toList ++ [dq] ++ "DEPRECATED old one".toList ++ [dq] ++ ")".toList

/-- A registration of `spectree__dup` with a clean description. -/
def cbC : List Char :=
  regLit ++ [dq] ++ "spectree__dup".toList ++ [dq] ++ (',' :: ' ' :: [lbrace]) ++
    "description: ".toList ++ [dq] ++ "new one".toList ++ [dq] ++ ")".toList

/-- A registration whose identifier is opened with a double quote and closed
with a single quote, and whose description is quoted the other way round. -/
def c10text : List Char :=
  regLit ++ [dq] ++ "spectree__mix".toList ++ [sqc] ++ (',' :: ' ' :: [lbrace]) ++
    "description: ".toList ++ [sqc] ++ "Mixed quote demo".toList ++ [dq] ++ ")".toList

/-- The identifier of the counterexample registration below. -/
def cexName : List Char := "spectree__cthree".toList

/-- An incomplete earlier registration: marker, quoted identifier `x`, comma and
an opening brace whose gap reaches into whatever follows. -/
def cexPre : List Char :=
  regLit ++ [sqc] ++ "x".toList ++ [sqc] ++ (',' :: ' ' :: [lbrace]) ++ " ".toList

/-- A text whose perfectly well-shaped registration of `cexName` is preceded by
`cexPre`, which the scanner consumes past it. -/
def cexText : List Char :=
  cexPre ++ (regConstruct [] dq cexName dq [' '] [] [' '] dq ("Short".toList) ++ ")".toList)

/-- Identifier used by the positive C3 witness. -/
def wit3Name : List Char := "spectree__good".toList

/-- Gap text (no closing brace) between the brace and the description keyword. -/
def wit3Mid : List Char := "title: 1, ".toList

/-- Description used by the positive C3 witness. -/
def wit3Desc : List Char := "Good tool.".toList

/-- Benign prefix plus a well-shaped registration of `wit3Name`. -/
def wit3Text : List Char :=
  "x\n".toList ++ (regConstruct [' '] dq wit3Name dq [' '] wit3Mid [' '] dq wit3Desc ++ ")".toList)

/-- A file in the name-extraction variant: `DEPRECATED` appears before the
registration of `spectree__legacy`. -/
def c5C : List Char :=
  "DEPRECATED".toList ++ [Char.ofNat 10] ++ regLit ++ [dq] ++ "spectree__legacy".toList ++
    [dq] ++ ")".toList

/-- A document mentioning `spectree__alpha` three times. -/
def d1C : List Char :=
  "use spectree__alpha and spectree__alpha and spectree__alpha here".toList

/-- A second document mentioning `spectree__alpha` once. -/
def d2C : List Char := "spectree__alpha too".toList

/-! ### Basic facts about the string primitives -/

theorem dropLit_eq_append {l : List Char} :
    ∀ {s r : List Char}, dropLit l s = some r → s = l ++ r := by
  induction l with
  | nil => intro s r h; simp [dropLit] at h; simp [h]
  | cons c cs ih =>
    intro s r h
    cases s with
    | nil => simp [dropLit] at h
    | cons x xs =>
      simp only [dropLit] at h
      split at h
      · next heq => subst heq; simpa using ih h
      · exact absurd h (by simp)

theorem dropLit_append (l r : List Char) : dropLit l (l ++ r) = some r := by
  induction l with
  | nil => rfl
  | cons c cs ih => simp [dropLit, ih]

theorem litPre_iff {p s : List Char} : litPre p s = true ↔ p <+: s := by
  constructor
  · intro h
    rw [litPre, Option.isSome_iff_exists] at h
    obtain ⟨r, hr⟩ := h
    exact ⟨r, (dropLit_eq_append hr).symm⟩
  · rintro ⟨t, rfl⟩
    simp [litPre, dropLit_append]

theorem strIn_iff {n : List Char} : ∀ {h : List Char}, strIn n h = true ↔ n <:+: h := by
  intro h
  induction h with
  | nil => simp [strIn, litPre_iff, List.prefix_nil, List.infix_nil]
  | cons c t ih => simp [strIn, litPre_iff, ih, List.infix_cons_iff]

theorem isQuote_not_ws {c : Char} (h : isQuote c = true) : isWs c = false := by
  simp only [isQuote, Bool.or_eq_true, beq_iff_eq] at h
  rcases h with rfl | rfl <;> decide

theorem tryDescTail_some {s d r : List Char} (h : tryDescTail s = some (d, r)) :
    r <:+ s ∧ r.length < s.length := by
  cases h1 : dropLit descLit s with
  | none => simp [tryDescTail, h1] at h
  | some r1 =>
    have hs : s = descLit ++ r1 := dropLit_eq_append h1
    cases h2 : List.dropWhile isWs r1 with
    | nil => simp [tryDescTail, h1, h2] at h
    | cons c cs =>
      simp only [tryDescTail, h1, h2] at h
      split at h
      · split at h
        · simp at h
        · have hr : r = List.dropWhile nonQ cs := by
            have := (Option.some.injEq _ _).mp h
            exact (congrArg Prod.snd this).symm
          have s1 : r <:+ cs := hr ▸ List.dropWhile_suffix nonQ
          have s2 : cs <:+ r1 := (List.suffix_cons c cs).trans (h2 ▸ List.dropWhile_suffix isWs)
          constructor
          · exact (s1.trans s2).trans ⟨descLit, hs.symm⟩
          · have l1 : r.length ≤ cs.length := s1.length_le
            have l2 : cs.length ≤ r1.length := s2.length_le
            have l3 : s.length = descLit.length + r1.length := by simp [hs]
            have : (0 : Nat) < descLit.length := by decide
            omega
      · simp at h

theorem matchAfterBrace_some :
    ∀ {s d r : List Char}, matchAfterBrace s = some (d, r) →
      r <:+ s ∧ r.length < s.length := by
  intro s
  induction s with
  | nil => intro d r h; simp [matchAfterBrace] at h
  | cons c cs ih =>
    intro d r h
    cases ht : tryDescTail (c :: cs) with
    | some p =>
      simp only [matchAfterBrace, ht] at h
      have hp : p = (d, r) := by exact Option.some.inj h
      exact tryDescTail_some (hp ▸ ht)
    | none =>
      simp only [matchAfterBrace, ht] at h
      split at h
      · simp at h
      · obtain ⟨h1, h2⟩ := ih h
        exact ⟨h1.trans (List.suffix_cons c cs), by simp; omega⟩

theorem matchAt_length {s n d r : List Char} (h : matchAt s = some (n, d, r)) :
    r.length < s.length := by
  cases h1 : dropLit regLit s with
  | none => simp [matchAt, h1] at h
  | some r1 =>
    have hs : s = regLit ++ r1 := dropLit_eq_append h1
    cases h2 : List.dropWhile isWs r1 with
    | nil => simp [matchAt, h1, h2] at h
    | cons c cs =>
      simp only [matchAt, h1, h2] at h
      have lcs : cs.length < r1.length := by
        have : (c :: cs).length ≤ r1.length := (h2 ▸ List.dropWhile_suffix isWs).length_le
        simp at this; omega
      split at h
      · cases h3 : List.dropWhile nonQ cs with
        | nil => rw [h3] at h; exact absurd h (by simp)
        | cons q r4 =>
          simp only [h3] at h
          have lr4 : r4.length < cs.length := by
            have : (q :: r4).length ≤ cs.length := (h3 ▸ List.dropWhile_suffix nonQ).length_le
            simp at this; omega
          split at h
          · split at h
            · simp at h
            · split at h
              · simp at h
              · next a r5 =>
                split at h
                · cases h4 : List.dropWhile isWs r5 with
                  | nil => rw [h4] at h; simp at h
                  | cons b r7 =>
                    simp only [h4] at h
                    have lr7 : r7.length < r5.length + 1 := by
                      have : (b :: r7).length ≤ r5.length :=
                        (h4 ▸ List.dropWhile_suffix isWs).length_le
                      simp at this; omega
                    split at h
                    · cases h5 : matchAfterBrace r7 with
                      | none => simp [h5] at h
                      | some p =>
                        simp only [h5] at h
                        have hr : r = p.2 := by
                          have := Option.some.inj h
                          exact (congrArg (fun t => t.2.2) this).symm
                        have lp : p.2.length < r7.length := by
                          obtain ⟨_, hl⟩ := matchAfterBrace_some (d := p.1) (r := p.2)
                            (by simpa using h5)
                          exact hl
                        have lreg : s.length = regLit.length + r1.length := by simp [hs]
                        have hpos : (0 : Nat) < regLit.length := by decide
                        subst hr
                        simp at lr4
                        omega
                    · simp at h
                · simp at h
          · simp at h
      · simp at h

theorem matchAtN_some {s n r : List Char} (h : matchAtN s = some (n, r)) :
    n <:+: s ∧ r <:+ s ∧ r.length < s.length := by
  cases h1 : dropLit regLit s with
  | none => simp [matchAtN, h1] at h
  | some r1 =>
    have hs : s = regLit ++ r1 := dropLit_eq_append h1
    cases h2 : List.dropWhile isWs r1 with
    | nil => simp [matchAtN, h1, h2] at h
    | cons c cs =>
      simp only [matchAtN, h1, h2] at h
      have hr1 : List.takeWhile isWs r1 ++ c :: cs = r1 := by
        have t := List.takeWhile_append_dropWhile isWs r1
        rw [h2] at t; exact t
      split at h
      · cases h3 : List.dropWhile nonQ cs with
        | nil => rw [h3] at h; exact absurd h (by simp)
        | cons q r4 =>
          simp only [h3] at h
          have hcs : List.takeWhile nonQ cs ++ q :: r4 = cs := by
            have t := List.takeWhile_append_dropWhile nonQ cs
            rw [h3] at t; exact t
          split at h
          · split at h
            · simp at h
            · obtain ⟨hn, hr⟩ : n = List.takeWhile nonQ cs ∧ r = r4 := by
                have := Option.some.inj h
                exact ⟨(congrArg Prod.fst this).symm, (congrArg Prod.snd this).symm⟩
              have hdec : (regLit ++ List.takeWhile isWs r1 ++ [c]) ++
                  List.takeWhile nonQ cs ++ (q :: r4) = s := by
                conv_rhs => rw [hs, ← hr1, ← hcs]
                simp
              rw [hn, hr]
              refine ⟨⟨regLit ++ List.takeWhile isWs r1 ++ [c], q :: r4, hdec⟩, ?_, ?_⟩
              · refine ⟨(regLit ++ List.takeWhile isWs r1 ++ [c]) ++
                  List.takeWhile nonQ cs ++ [q], ?_⟩
                conv_rhs => rw [← hdec]
                simp
              · have := congrArg List.length hdec
                simp at this
                omega
          · simp at h
      · simp at h

theorem matchMention_some {s n r : List Char} (h : matchMention s = some (n, r)) :
    r <:+ s ∧ r.length < s.length := by
  cases h1 : dropLit nsLit s with
  | none => simp [matchMention, h1] at h
  | some r0 =>
    have hs : s = nsLit ++ r0 := dropLit_eq_append h1
    simp only [matchMention, h1] at h
    split at h
    · simp at h
    · have hr : r = List.dropWhile isIdC r0 := by
        have := Option.some.inj h
        exact (congrArg Prod.snd this).symm
      have s1 : r <:+ r0 := hr ▸ List.dropWhile_suffix isIdC
      refine ⟨s1.trans ⟨nsLit, hs.symm⟩, ?_⟩
      have l1 : r.length ≤ r0.length := s1.length_le
      have l2 : s.length = nsLit.length + r0.length := by simp [hs]
      have : (0 : Nat) < nsLit.length := by decide
      omega

/-! ### The generic scanner -/

theorem scanWith_nil {α : Type} (step : List Char → Option (α × List Char)) (f : Nat) :
    scanWith step f [] = [] := by
  cases f <;> rfl

theorem scanWith_fuel {α : Type} (step : List Char → Option (α × List Char))
    (hlen : ∀ s a r, step s = some (a, r) → r.length < s.length) :
    ∀ f1 f2 s, s.length ≤ f1 → s.length ≤ f2 → scanWith step f1 s = scanWith step f2 s := by
  intro f1
  induction f1 with
  | zero =>
    intro f2 s h1 _
    have : s = [] := List.eq_nil_of_length_eq_zero (by omega)
    subst this
    rw [scanWith_nil, scanWith_nil]
  | succ f ih =>
    intro f2 s h1 h2
    cases s with
    | nil => rw [scanWith_nil, scanWith_nil]
    | cons c cs =>
      cases f2 with
      | zero => simp at h2
      | succ f2' =>
        simp only [scanWith]
        cases hc : step (c :: cs) with
        | none =>
          have : cs.length ≤ f := by simp at h1; omega
          have h2' : cs.length ≤ f2' := by simp at h2; omega
          exact ih f2' cs this h2'
        | some ar =>
          obtain ⟨a, r2⟩ := ar
          have hl := hlen _ _ _ hc
          have : r2.length ≤ f := by simp at h1 hl; omega
          have h2' : r2.length ≤ f2' := by simp at h2 hl; omega
          simp only []
          rw [ih f2' r2 this h2']

theorem mem_scanWith {α : Type} (step : List Char → Option (α × List Char))
    (hstep : ∀ s a r, step s = some (a, r) → r <:+ s ∧ r.length < s.length) :
    ∀ f s a, a ∈ scanWith step f s → ∃ t r, t <:+ s ∧ step t = some (a, r) := by
  intro f
  induction f with
  | zero => intro s a h; simp [scanWith] at h
  | succ f ih =>
    intro s a h
    cases s with
    | nil => simp [scanWith] at h
    | cons c cs =>
      simp only [scanWith] at h
      cases hc : step (c :: cs) with
      | none =>
        rw [hc] at h
        obtain ⟨t, r, ht, hm⟩ := ih cs a h
        exact ⟨t, r, ht.trans (List.suffix_cons c cs), hm⟩
      | some ar =>
        obtain ⟨a0, r2⟩ := ar
        rw [hc] at h
        simp only [] at h
        rcases List.mem_cons.mp h with rfl | h'
        · exact ⟨c :: cs, r2, List.suffix_refl _, hc⟩
        · obtain ⟨t, r, ht, hm⟩ := ih r2 a h'
          exact ⟨t, r, ht.trans (hstep _ _ _ hc).1, hm⟩

/-! ### The position-tracking scanner -/

theorem scanRegsF_nil (f p : Nat) : scanRegsF f [] p = [] := by
  cases f <;> rfl

theorem scanRegsF_fuel :
    ∀ f1 f2 s p, s.length ≤ f1 → s.length ≤ f2 → scanRegsF f1 s p = scanRegsF f2 s p := by
  intro f1
  induction f1 with
  | zero =>
    intro f2 s p h1 _
    have : s = [] := List.eq_nil_of_length_eq_zero (by omega)
    subst this
    rw [scanRegsF_nil, scanRegsF_nil]
  | succ f ih =>
    intro f2 s p h1 h2
    cases s with
    | nil => rw [scanRegsF_nil, scanRegsF_nil]
    | cons c cs =>
      cases f2 with
      | zero => simp at h2
      | succ f2' =>
        simp only [scanRegsF]
        cases hc : matchAt (c :: cs) with
        | none =>
          have : cs.length ≤ f := by simp at h1; omega
          have h2' : cs.length ≤ f2' := by simp at h2; omega
          exact ih f2' cs (p + 1) this h2'
        | some ndr =>
          obtain ⟨n, d, r⟩ := ndr
          have hl := matchAt_length hc
          have : r.length ≤ f := by simp at h1 hl; omega
          have h2' : r.length ≤ f2' := by simp at h2 hl; omega
          simp only []
          rw [ih f2' r _ this h2']

theorem scanRegs_cons_some {c : Char} {cs n d r : List Char} {p : Nat}
    (h : matchAt (c :: cs) = some (n, d, r)) :
    scanRegs (c :: cs) p = (p, n, d) :: scanRegs r (p + ((c :: cs).length - r.length)) := by
  have hl := matchAt_length h
  simp only [scanRegs, scanRegsF, h]
  rw [scanRegsF_fuel cs.length r.length r _ (by simp at hl; omega) (by omega)]

theorem scanRegs_cons_none {c : Char} {cs : List Char} {p : Nat}
    (h : matchAt (c :: cs) = none) :
    scanRegs (c :: cs) p = scanRegs cs (p + 1) := by
  simp only [scanRegs, scanRegsF, h]

/-! ### Dictionary facts -/

theorem dlookup_dictSet_self {V : Type} (m : List (List Char × V)) (k : List Char) (v : V) :
    dlookup k (dictSet m k v) = some v := by
  induction m with
  | nil => simp [dictSet, dlookup]
  | cons e t ih =>
    obtain ⟨k0, v0⟩ := e
    by_cases hk : k0 = k
    · simp [dictSet, hk, dlookup]
    · simp [dictSet, hk, dlookup, ih]

theorem dlookup_dictSet_ne {V : Type} (m : List (List Char × V)) {k k0 : List Char} (v : V)
    (hne : k0 ≠ k) : dlookup k (dictSet m k0 v) = dlookup k m := by
  induction m with
  | nil => simp [dictSet, dlookup, hne]
  | cons e t ih =>
    obtain ⟨k1, v1⟩ := e
    by_cases hk : k1 = k0
    · subst hk; simp [dictSet, dlookup, hne, ih]
    · by_cases hk2 : k1 = k
      · subst hk2; simp [dictSet, Ne.symm hne, dlookup]
      · simp [dictSet, hk, dlookup, hk2, ih]

theorem dlookup_writeAll (es : List (List Char × ToolRec)) :
    ∀ (m : List (List Char × ToolRec)) (k : List Char),
      dlookup k (writeAll m es) = oOr (dlookup k (writeAll [] es)) (dlookup k m) := by
  induction es with
  | nil => intro m k; simp [writeAll, dlookup, oOr]
  | cons e t ih =>
    intro m k
    have step : ∀ m0 : List (List Char × ToolRec),
        writeAll m0 (e :: t) = writeAll (dictSet m0 e.1 e.2) t := fun _ => rfl
    rw [step m, step []]
    rw [ih (dictSet m e.1 e.2) k, ih (dictSet [] e.1 e.2) k]
    cases hw : dlookup k (writeAll [] t) with
    | some v => simp [oOr]
    | none =>
      simp only [oOr]
      by_cases hk : e.1 = k
      · subst hk
        simp [dlookup_dictSet_self, oOr]
      · rw [dlookup_dictSet_ne _ _ hk, dlookup_dictSet_ne _ _ hk]
        simp [dlookup, oOr]

theorem mem_key_dictSet {V : Type} {m : List (List Char × V)} {k k0 : List Char} {v v0 : V}
    (h : (k, v) ∈ dictSet m k0 v0) : k = k0 ∨ ∃ v1, (k, v1) ∈ m := by
  induction m with
  | nil => simp [dictSet] at h; exact Or.inl h.1
  | cons e t ih =>
    obtain ⟨k1, v1⟩ := e
    by_cases hk : k1 = k0
    · subst hk
      simp [dictSet] at h
      rcases h with ⟨rfl, rfl⟩ | hm
      · exact Or.inl rfl
      · exact Or.inr ⟨v, List.mem_cons_of_mem _ hm⟩
    · simp [dictSet, hk] at h
      rcases h with ⟨hek, hev⟩ | hm
      · exact Or.inr ⟨v1, by rw [hek]; exact List.mem_cons_self _ _⟩
      · rcases ih hm with h1 | ⟨v2, h2⟩
        · exact Or.inl h1
        · exact Or.inr ⟨v2, List.mem_cons_of_mem _ h2⟩

theorem mem_key_writeAll {es : List (List Char × ToolRec)} :
    ∀ {m : List (List Char × ToolRec)} {k : List Char} {v : ToolRec},
      (k, v) ∈ writeAll m es →
        (∃ v1, (k, v1) ∈ es) ∨ ∃ v1, (k, v1) ∈ m := by
  induction es with
  | nil => intro m k v h; exact Or.inr ⟨v, h⟩
  | cons e t ih =>
    intro m k v h
    have step : writeAll m (e :: t) = writeAll (dictSet m e.1 e.2) t := rfl
    rw [step] at h
    rcases ih h with ⟨v1, h1⟩ | ⟨v1, h1⟩
    · exact Or.inl ⟨v1, List.mem_cons_of_mem _ h1⟩
    · rcases mem_key_dictSet h1 with hk | ⟨v2, h2⟩
      · subst hk
        exact Or.inl ⟨e.2, by simp⟩
      · exact Or.inr ⟨v2, h2⟩

theorem hasKey_writeAll_of_mem {es : List (List Char × ToolRec)} :
    ∀ {m : List (List Char × ToolRec)} {k : List Char},
      ((∃ v, (k, v) ∈ es) ∨ hasKey k m = true) → hasKey k (writeAll m es) = true := by
  induction es with
  | nil =>
    intro m k h
    rcases h with ⟨v, hv⟩ | h
    · simp at hv
    · exact h
  | cons e t ih =>
    intro m k h
    have step : writeAll m (e :: t) = writeAll (dictSet m e.1 e.2) t := rfl
    rw [step]
    by_cases hk : e.1 = k
    · subst hk
      refine ih (Or.inr ?_)
      simp [hasKey, dlookup_dictSet_self]
    · rcases h with ⟨v, hv⟩ | h
      · rcases List.mem_cons.mp hv with heq | hm
        · exact absurd (congrArg Prod.fst heq).symm hk
        · exact ih (Or.inl ⟨v, hm⟩)
      · refine ih (Or.inr ?_)
        simpa [hasKey, dlookup_dictSet_ne _ _ hk] using h

/-! ### Defaultdict facts -/

theorem dget_ddApp_self (m : List (List Char × List (List Char))) (k v : List Char) :
    dget (ddApp m k v) k = dget m k ++ [v] := by
  induction m with
  | nil => simp [ddApp, dget, dlookup]
  | cons e t ih =>
    obtain ⟨k0, vs⟩ := e
    by_cases hk : k0 = k
    · subst hk; simp [ddApp, dget, dlookup]
    · simp [ddApp, hk, dget, dlookup] at ih ⊢
      exact ih

theorem dget_ddApp_ne (m : List (List Char × List (List Char))) {k k0 : List Char}
    (v : List Char) (hne : k0 ≠ k) : dget (ddApp m k0 v) k = dget m k := by
  induction m with
  | nil => simp [ddApp, dget, dlookup, hne]
  | cons e t ih =>
    obtain ⟨k1, vs⟩ := e
    by_cases hk : k1 = k0
    · subst hk; simp [ddApp, dget, dlookup, hne, ih]
    · by_cases hk2 : k1 = k
      · subst hk2; simp [ddApp, Ne.symm hne, hk, dget, dlookup]
      · simp [ddApp, hk, hk2, dget, dlookup] at ih ⊢
        exact ih

theorem dget_foldl_ddApp (l : List Char) :
    ∀ (names : List (List Char)), names.Nodup →
      ∀ (m : List (List Char × List (List Char))) (k : List Char),
        dget (List.foldl (fun m n => ddApp m n l) m names) k =
          if k ∈ names then dget m k ++ [l] else dget m k := by
  intro names
  induction names with
  | nil => intro _ m k; simp
  | cons n ns ih =>
    intro hnd m k
    have hn : n ∉ ns := (List.nodup_cons.mp hnd).1
    have hns : ns.Nodup := (List.nodup_cons.mp hnd).2
    simp only [List.foldl_cons]
    rw [ih hns (ddApp m n l) k]
    by_cases hk : k = n
    · subst hk
      simp [hn, dget_ddApp_self]
    · rw [dget_ddApp_ne _ _ (Ne.symm hk)]
      simp [hk]

theorem dget_foldl_docs :
    ∀ (ds : List (List Char × List Char)) (m : List (List Char × List (List Char)))
      (k : List Char),
      dget (List.foldl (fun m dt => List.foldl (fun m n => ddApp m n dt.1) m (mset dt.2)) m ds) k
        = dget m k ++
          List.filterMap (fun dt => if k ∈ mset dt.2 then some dt.1 else none) ds := by
  intro ds
  induction ds with
  | nil => intro m k; simp
  | cons d t ih =>
    intro m k
    simp only [List.foldl_cons, List.filterMap_cons]
    rw [ih]
    rw [dget_foldl_ddApp d.1 (mset d.2) (List.nodup_dedup _) m k]
    by_cases hk : k ∈ mset d.2
    · simp [hk]
    · simp [hk]

/-! ### Sorting facts -/

theorem insSorted_perm {α : Type} (le : α → α → Bool) (x : α) :
    ∀ l : List α, List.Perm (insSorted le x l) (x :: l) := by
  intro l
  induction l with
  | nil => simp [insSorted]
  | cons y t ih =>
    simp only [insSorted]
    split
    · exact List.Perm.refl _
    · exact (ih.cons y).trans (List.Perm.swap x y t)

theorem sortIns_perm {α : Type} (le : α → α → Bool) :
    ∀ l : List α, List.Perm (sortIns le l) l := by
  intro l
  induction l with
  | nil => simp [sortIns]
  | cons a t ih =>
    have : sortIns le (a :: t) = insSorted le a (sortIns le t) := rfl
    rw [this]
    exact (insSorted_perm le a (sortIns le t)).trans (ih.cons a)

theorem mem_keysSorted {V : Type} {m : List (List Char × V)} {k : List Char} :
    k ∈ keysSorted m ↔ k ∈ List.map Prod.fst m := by
  exact (sortIns_perm lexLe (List.map Prod.fst m)).mem_iff

/-! ### Python find facts -/

theorem pyFind_some {n : List Char} :
    ∀ {h : List Char} {k : Nat}, pyFind n h = some k →
      n <+: List.drop k h ∧ ∀ j < k, ¬ n <+: List.drop j h := by
  intro h
  induction h with
  | nil =>
    intro k hf
    simp only [pyFind] at hf
    split at hf
    · next hp =>
      have : k = 0 := by exact (Option.some.inj hf).symm
      subst this
      exact ⟨litPre_iff.mp hp, by omega⟩
    · simp at hf
  | cons c t ih =>
    intro k hf
    simp only [pyFind] at hf
    split at hf
    · next hp =>
      have : k = 0 := by exact (Option.some.inj hf).symm
      subst this
      exact ⟨litPre_iff.mp hp, by omega⟩
    · next hp =>
      cases hft : pyFind n t with
      | none => rw [hft] at hf; simp at hf
      | some k0 =>
        rw [hft] at hf
        simp at hf
        subst hf
        obtain ⟨h1, h2⟩ := ih hft
        refine ⟨by simpa using h1, ?_⟩
        intro j hj
        cases j with
        | zero =>
          simp only [List.drop_zero]
          intro hpre
          exact hp (litPre_iff.mpr hpre)
        | succ j0 =>
          simp only [List.drop_succ_cons]
          exact h2 j0 (by omega)

theorem pyFind_isSome {n : List Char} :
    ∀ {h : List Char} {j : Nat}, n <+: List.drop j h → (pyFind n h).isSome = true := by
  intro h
  induction h with
  | nil =>
    intro j hp
    simp at hp
    simp [pyFind, litPre_iff, hp]
  | cons c t ih =>
    intro j hp
    cases j with
    | zero =>
      simp only [List.drop_zero] at hp
      simp [pyFind, litPre_iff, hp]
    | succ j0 =>
      simp only [List.drop_succ_cons] at hp
      simp only [pyFind]
      split
      · simp
      · simpa using ih hp

/-! ### A well-shaped registration construct always matches -/

theorem tryDescTail_hit {w : List Char} {q c0 : Char} (rest : List Char)
    (hw : ∀ x ∈ w, isWs x = true) (hq : isQuote q = true) (hc0 : nonQ c0 = true) :
    ∃ pr, tryDescTail (descLit ++ (w ++ (q :: (c0 :: rest)))) = some pr := by
  have e : List.dropWhile isWs (w ++ (q :: (c0 :: rest))) = q :: c0 :: rest := by
    rw [List.dropWhile_append_of_pos hw, List.dropWhile_cons_of_neg]
    simp [isQuote_not_ws hq]
  have e2 : (List.takeWhile nonQ (c0 :: rest)).isEmpty = false := by
    rw [List.takeWhile_cons_of_pos hc0]
    simp
  refine ⟨(List.takeWhile nonQ (c0 :: rest), List.dropWhile nonQ (c0 :: rest)), ?_⟩
  simp only [tryDescTail, dropLit_append, e]
  rw [if_pos hq, if_neg (by simp [e2])]

theorem matchAfterBrace_hit {w : List Char} {q c0 : Char} (rest : List Char)
    (hw : ∀ x ∈ w, isWs x = true) (hq : isQuote q = true) (hc0 : nonQ c0 = true) :
    ∀ mid : List Char, (∀ x ∈ mid, x ≠ rbrace) →
      ∃ pr, matchAfterBrace (mid ++ (descLit ++ (w ++ (q :: (c0 :: rest))))) = some pr := by
  intro mid
  induction mid with
  | nil =>
    intro _
    obtain ⟨pr, hpr⟩ := tryDescTail_hit rest hw hq hc0
    rw [List.nil_append]
    cases hs : descLit ++ (w ++ (q :: (c0 :: rest))) with
    | nil => simp [descLit] at hs
    | cons c cs =>
      rw [hs] at hpr
      exact ⟨pr, by simp [matchAfterBrace, hpr]⟩
  | cons m mid' ih =>
    intro hmid
    have hm : m ≠ rbrace := hmid m (List.mem_cons_self _ _)
    have hmid' : ∀ x ∈ mid', x ≠ rbrace := fun x hx => hmid x (List.mem_cons_of_mem _ hx)
    obtain ⟨pr, hpr⟩ := ih hmid'
    rw [List.cons_append]
    cases ht : tryDescTail (m :: (mid' ++ (descLit ++ (w ++ (q :: (c0 :: rest)))))) with
    | some p => exact ⟨p, by simp [matchAfterBrace, ht]⟩
    | none => exact ⟨pr, by simp [matchAfterBrace, ht, hm, hpr]⟩

theorem matchAt_construct {ws1 ws2 mid ws3 : List Char} {q1 q2 q3 : Char}
    {name desc : List Char} (tail : List Char)
    (hws1 : ∀ x ∈ ws1, isWs x = true) (hws2 : ∀ x ∈ ws2, isWs x = true)
    (hws3 : ∀ x ∈ ws3, isWs x = true)
    (hq1 : isQuote q1 = true) (hq2 : isQuote q2 = true) (hq3 : isQuote q3 = true)
    (hname : name ≠ []) (hnq : ∀ x ∈ name, nonQ x = true)
    (hmid : ∀ x ∈ mid, x ≠ rbrace)
    (hdesc : desc ≠ []) (hdq : ∀ x ∈ desc, nonQ x = true) :
    ∃ d r, matchAt (regConstruct ws1 q1 name q2 ws2 mid ws3 q3 desc ++ tail) =
      some (name, d, r) := by
  obtain ⟨c0, ds, rfl⟩ : ∃ c0 ds, desc = c0 :: ds := by
    cases desc with
    | nil => exact absurd rfl hdesc
    | cons c0 ds => exact ⟨c0, ds, rfl⟩
  have hc0 : nonQ c0 = true := hdq c0 (List.mem_cons_self _ _)
  obtain ⟨pr, hpr⟩ := matchAfterBrace_hit (ds ++ tail) hws3 hq3 hc0 mid hmid
  generalize hY : mid ++ (descLit ++ (ws3 ++ (q3 :: (c0 :: (ds ++ tail))))) = Y at hpr
  have hX : regConstruct ws1 q1 name q2 ws2 mid ws3 q3 (c0 :: ds) ++ tail =
      regLit ++ (ws1 ++ (q1 :: (name ++ (q2 :: (',' :: (ws2 ++ (lbrace :: Y))))))) := by
    rw [← hY]
    simp [regConstruct]
  have e2 : List.dropWhile isWs (ws1 ++ (q1 :: (name ++ (q2 :: (',' :: (ws2 ++ (lbrace :: Y))))))) =
      q1 :: (name ++ (q2 :: (',' :: (ws2 ++ (lbrace :: Y))))) := by
    rw [List.dropWhile_append_of_pos hws1, List.dropWhile_cons_of_neg]
    simp [isQuote_not_ws hq1]
  have e3 : List.dropWhile nonQ (name ++ (q2 :: (',' :: (ws2 ++ (lbrace :: Y))))) =
      q2 :: (',' :: (ws2 ++ (lbrace :: Y))) := by
    rw [List.dropWhile_append_of_pos hnq, List.dropWhile_cons_of_neg]
    simp [nonQ, hq2]
  have e4 : List.takeWhile nonQ (name ++ (q2 :: (',' :: (ws2 ++ (lbrace :: Y))))) = name := by
    rw [List.takeWhile_append_of_pos hnq, List.takeWhile_cons_of_neg]
    · simp
    · simp [nonQ, hq2]
  have e5 : List.dropWhile isWs (ws2 ++ (lbrace :: Y)) = lbrace :: Y := by
    rw [List.dropWhile_append_of_pos hws2, List.dropWhile_cons_of_neg]
    decide
  have e6 : (List.takeWhile nonQ (name ++ (q2 :: (',' :: (ws2 ++ (lbrace :: Y)))))).isEmpty =
      false := by
    rw [e4]
    cases name with
    | nil => exact absurd rfl hname
    | cons a l => simp
  refine ⟨pr.1, pr.2, ?_⟩
  rw [hX]
  simp only [matchAt, dropLit_append, e2]
  rw [if_pos hq1]
  simp only [e3]
  simp [e4, e5, e6, hq2, hpr]
  exact hname

theorem scanRegs_append_none :
    ∀ (pre : List Char) (s : List Char) (p : Nat),
      (∀ i, i < pre.length → matchAt (List.drop i (pre ++ s)) = none) →
      scanRegs (pre ++ s) p = scanRegs s (p + pre.length) := by
  intro pre
  induction pre with
  | nil => intro s p _; simp
  | cons a pre' ih =>
    intro s p h
    have h0 : matchAt (a :: (pre' ++ s)) = none := by
      have := h 0 (by simp)
      simpa using this
    rw [List.cons_append, scanRegs_cons_none h0]
    have h' : ∀ i, i < pre'.length → matchAt (List.drop i (pre' ++ s)) = none := by
      intro i hi
      have := h (i + 1) (by simp; omega)
      simpa using this
    rw [ih s (p + 1) h']
    have e : p + 1 + pre'.length = p + (a :: pre').length := by simp; omega
    rw [e]

theorem count_filterMap_zero {k l : List Char} :
    ∀ ds : List (List Char × List Char), l ∉ List.map Prod.fst ds →
      List.count l
        (List.filterMap (fun dt => if k ∈ mset dt.2 then some dt.1 else none) ds) = 0 := by
  intro ds
  induction ds with
  | nil => intro _; simp
  | cons d t ih =>
    intro h
    rw [List.map_cons] at h
    have h1 : l ≠ d.1 := fun he => h (he ▸ List.mem_cons_self _ _)
    have h2 : l ∉ List.map Prod.fst t := fun hm => h (List.mem_cons_of_mem _ hm)
    rw [List.filterMap_cons]
    by_cases hc : k ∈ mset d.2
    · simp only [if_pos hc, List.count_cons_of_ne h1]
      exact ih h2
    · simp only [if_neg hc]
      exact ih h2

theorem count_filterMap_one {k l t0 : List Char} :
    ∀ ds : List (List Char × List Char), (List.map Prod.fst ds).Nodup →
      (l, t0) ∈ ds → k ∈ mset t0 →
      List.count l
        (List.filterMap (fun dt => if k ∈ mset dt.2 then some dt.1 else none) ds) = 1 := by
  intro ds
  induction ds with
  | nil => intro _ hm _; simp at hm
  | cons d rest ih =>
    intro hnd hm hk
    rw [List.map_cons] at hnd
    have hh := List.nodup_cons.mp hnd
    rcases List.mem_cons.mp hm with heq | hmem
    · subst heq
      rw [List.filterMap_cons]
      simp only [if_pos hk]
      rw [List.count_cons_self]
      have hnm : l ∉ List.map Prod.fst rest := by simpa using hh.1
      rw [count_filterMap_zero rest hnm]
    · have hl : l ∈ List.map Prod.fst rest := List.mem_map.mpr ⟨(l, t0), hmem, rfl⟩
      have h1 : l ≠ d.1 := fun he => hh.1 (he ▸ hl)
      rw [List.filterMap_cons]
      by_cases hc : k ∈ mset d.2
      · simp only [if_pos hc, List.count_cons_of_ne h1]
        exact ih hh.2 hmem hk
      · simp only [if_neg hc]
        exact ih hh.2 hmem hk

theorem hasKey_iff {V : Type} {m : List (List Char × V)} {k : List Char} :
    hasKey k m = true ↔ k ∈ List.map Prod.fst m := by
  induction m with
  | nil =>
    simp only [hasKey, dlookup, List.map_nil]
    constructor
    · intro h; simp at h
    · intro h; exact absurd h (List.not_mem_nil k)
  | cons e t ih =>
    obtain ⟨k0, v0⟩ := e
    by_cases hk : k0 = k
    · subst hk
      simp only [hasKey, dlookup, if_pos rfl, List.map_cons]
      constructor
      · intro _; exact List.mem_cons_self _ _
      · intro _; rfl
    · have e1 : hasKey k ((k0, v0) :: t) = hasKey k t := by
        simp only [hasKey, dlookup, if_neg hk]
      rw [e1, ih, List.map_cons]
      constructor
      · exact List.mem_cons_of_mem _
      · intro h
        rcases List.mem_cons.mp h with he | hm
        · exact absurd he.symm hk
        · exact hm

theorem hasKey_eq_false {V : Type} {m : List (List Char × V)} {k : List Char}
    (h : k ∉ List.map Prod.fst m) : hasKey k m = false := by
  cases hcs : hasKey k m
  · rfl
  · exact absurd (hasKey_iff.mp hcs) h

/-! ### Claim theorems -/

/-- C2.  The reconciler computes exactly the three advertised sets: an
identifier is in `not_in_source` iff it is a doc key and not a source key; in
`deprecated_in_docs` iff it is a doc key whose source record is deprecated; in
`not_documented` iff it is a source key and not a doc key. -/
theorem reconciler_sets_characterised (S : List (List Char × ToolRec))
    (D : List (List Char × List (List Char))) (k : List Char) :
    (k ∈ not_in_source S D ↔ k ∈ List.map Prod.fst D ∧ k ∉ List.map Prod.fst S) ∧
    (k ∈ deprecated_in_docs S D ↔ k ∈ List.map Prod.fst D ∧
      ∃ r, dlookup k S = some r ∧ r.deprecated = true) ∧
    (k ∈ not_documented S D ↔ k ∈ List.map Prod.fst S ∧ k ∉ List.map Prod.fst D) := by
  refine ⟨?_, ?_, ?_⟩
  · rw [not_in_source, List.mem_filter, mem_keysSorted]
    constructor
    · rintro ⟨h1, h2⟩
      simp at h2
      exact ⟨h1, fun hm => by simp [hasKey_iff.mpr hm] at h2⟩
    · rintro ⟨h1, h2⟩
      exact ⟨h1, by simp [hasKey_eq_false h2]⟩
  · rw [deprecated_in_docs, List.mem_filter, mem_keysSorted]
    constructor
    · rintro ⟨h1, h2⟩
      simp [Bool.and_eq_true] at h2
      obtain ⟨hk, hd⟩ := h2
      cases hl : dlookup k S with
      | none => rw [hasKey, hl] at hk; simp at hk
      | some r =>
        refine ⟨h1, r, rfl, ?_⟩
        rw [deprOf, hl] at hd
        exact hd
    · rintro ⟨h1, r, hl, hd⟩
      refine ⟨h1, ?_⟩
      simp [Bool.and_eq_true]
      exact ⟨by simp [hasKey, hl], by rw [deprOf, hl]; exact hd⟩
  · rw [not_documented, List.mem_filter, mem_keysSorted]
    constructor
    · rintro ⟨h1, h2⟩
      simp at h2
      exact ⟨h1, fun hm => by simp [hasKey_iff.mpr hm] at h2⟩
    · rintro ⟨h1, h2⟩
      exact ⟨h1, by simp [hasKey_eq_false h2]⟩

/-- C1.  The audit fails exactly when `not_in_source` or `deprecated_in_docs`
is non-empty; a non-empty `not_documented` set with the other two empty still
passes. -/
theorem audit_failed_iff (S : List (List Char × ToolRec))
    (D : List (List Char × List (List Char))) :
    (auditFailed S D = true ↔
      (not_in_source S D ≠ [] ∨ deprecated_in_docs S D ≠ [])) ∧
    (not_documented S D ≠ [] → not_in_source S D = [] → deprecated_in_docs S D = [] →
      auditFailed S D = false) := by
  constructor
  · simp [auditFailed, List.isEmpty_iff]
  · intro _ h1 h2
    simp [auditFailed, h1, h2]

/-- Witness for C1: a source mapping with one undocumented tool and an empty
doc mapping passes the audit. -/
theorem audit_failed_iff_witness :
    auditFailed [("spectree__b".toList, ⟨aLbl, false, []⟩)] [] = false := by
  refine (audit_failed_iff [("spectree__b".toList, ⟨aLbl, false, []⟩)] []).2 ?_ ?_ ?_
  · decide
  · decide
  · decide

/-! ### Extract-file membership -/

theorem mem_extractFile {f c k : List Char} {r : ToolRec} :
    (k, r) ∈ extractFile f c ↔
      ∃ p d, (p, k, d) ∈ scanRegs c 0 ∧ litPre nsLit k = true ∧ r = mkRec f c p d := by
  constructor
  · intro h
    obtain ⟨t, ht, hf⟩ := List.mem_filterMap.mp h
    obtain ⟨p, k0, d⟩ := t
    simp only [] at hf
    split at hf
    · next hpre =>
      have := Option.some.inj hf
      obtain ⟨h1, h2⟩ : k0 = k ∧ mkRec f c p d = r := by
        exact ⟨(congrArg Prod.fst this), (congrArg Prod.snd this)⟩
      subst h1
      exact ⟨p, d, ht, hpre, h2.symm⟩
    · simp at hf
  · rintro ⟨p, d, ht, hpre, rfl⟩
    refine List.mem_filterMap.mpr ⟨(p, k, d), ht, ?_⟩
    simp [hpre]

/-! ### Facts about the deprecation flag and description stored in a record -/

theorem mkRec_deprecated (f c : List Char) (p : Nat) (d : List Char) :
    ((mkRec f c p d).deprecated = true ↔
      deprLit <:+: List.take 200 (List.drop p c) ∨ glyphL <:+: List.take 200 (List.drop p c)) := by
  simp [mkRec, deprWin, Bool.or_eq_true, strIn_iff]

theorem mkRec_description (f c : List Char) (p : Nat) (d : List Char) :
    (d.length ≤ 100 → (mkRec f c p d).description = d) ∧
      (100 < d.length → (mkRec f c p d).description = List.take 100 d ++ elip) := by
  constructor
  · intro h
    simp only [mkRec]
    rw [if_neg (by omega)]
  · intro h
    simp only [mkRec]
    rw [if_pos h]

/-- C4.  A record produced by the source extractor is deprecated exactly when
`DEPRECATED` or the warning glyph occurs in the 200-character window starting
at the recorded match position. -/
theorem record_deprecated_iff_window (f c name : List Char) (r : ToolRec)
    (h : (name, r) ∈ extractFile f c) :
    ∃ pos desc, (pos, name, desc) ∈ scanRegs c 0 ∧
      (r.deprecated = true ↔
        (deprLit <:+: List.take 200 (List.drop pos c) ∨
          glyphL <:+: List.take 200 (List.drop pos c))) := by
  obtain ⟨p, d, hm, hpre, rfl⟩ := mem_extractFile.mp h
  exact ⟨p, d, hm, mkRec_deprecated f c p d⟩

/-- Witness for C4, on a registration whose description carries `DEPRECATED`. -/
theorem record_deprecated_iff_window_witness :
    ∃ pos desc, (pos, "spectree__dup".toList, desc) ∈ scanRegs caC 0 ∧
      ((⟨aLbl, true, "DEPRECATED old one".toList⟩ : ToolRec).deprecated = true ↔
        (deprLit <:+: List.take 200 (List.drop pos caC) ∨
          glyphL <:+: List.take 200 (List.drop pos caC))) :=
  record_deprecated_iff_window aLbl caC "spectree__dup".toList
    ⟨aLbl, true, "DEPRECATED old one".toList⟩ (by decide)

/-- C7.  The stored description is the captured field verbatim when it is at
most 100 characters long, and its first 100 characters plus an ellipsis
otherwise. -/
theorem record_description_excerpt (f c name : List Char) (r : ToolRec)
    (h : (name, r) ∈ extractFile f c) :
    ∃ pos desc, (pos, name, desc) ∈ scanRegs c 0 ∧
      (desc.length ≤ 100 → r.description = desc) ∧
      (100 < desc.length → r.description = List.take 100 desc ++ elip) := by
  obtain ⟨p, d, hm, hpre, rfl⟩ := mem_extractFile.mp h
  exact ⟨p, d, hm, (mkRec_description f c p d).1, (mkRec_description f c p d).2⟩

/-- Witness for C7, on a short description stored verbatim. -/
theorem record_description_excerpt_witness :
    ∃ pos desc, (pos, "spectree__dup".toList, desc) ∈ scanRegs cbC 0 ∧
      (desc.length ≤ 100 →
        (⟨bLbl, false, "new one".toList⟩ : ToolRec).description = desc) ∧
      (100 < desc.length →
        (⟨bLbl, false, "new one".toList⟩ : ToolRec).description =
          List.take 100 desc ++ elip) :=
  record_description_excerpt bLbl cbC "spectree__dup".toList
    ⟨bLbl, false, "new one".toList⟩ (by decide)

theorem extractFile_key_pre {f c k : List Char} {r : ToolRec}
    (h : (k, r) ∈ extractFile f c) : litPre nsLit k = true := by
  obtain ⟨p, d, _, hpre, _⟩ := mem_extractFile.mp h
  exact hpre

theorem fold_files_key_pre :
    ∀ (fs : List (List Char × List Char)) (m : List (List Char × ToolRec)),
      (∀ k1 r1, (k1, r1) ∈ m → litPre nsLit k1 = true) →
      ∀ k r, (k, r) ∈ List.foldl (fun m fc => writeAll m (extractFile fc.1 fc.2)) m fs →
        litPre nsLit k = true := by
  intro fs
  induction fs with
  | nil => intro m hm k r h; exact hm k r h
  | cons fc t ih =>
    intro m hm k r h
    rw [List.foldl_cons] at h
    refine ih (writeAll m (extractFile fc.1 fc.2)) ?_ k r h
    intro k1 r1 h1
    rcases mem_key_writeAll h1 with ⟨v, hv⟩ | ⟨v, hv⟩
    · exact extractFile_key_pre hv
    · exact hm k1 v hv

/-- C8.  Every identifier key in the source extractor's output mapping starts
with the `spectree__` namespace; a match without the namespace leaves no
record behind. -/
theorem source_keys_have_namespace (files : List (List Char × List Char))
    (k : List Char) (r : ToolRec) (h : (k, r) ∈ extract_tools_from_source files) :
    litPre nsLit k = true := by
  exact fold_files_key_pre (sortIns (fun p q => lexLe p.1 q.1) files) []
    (by intro k1 r1 h1; simp at h1) k r h

/-- Witness for C8 on a one-file input. -/
theorem source_keys_have_namespace_witness :
    litPre nsLit "spectree__dup".toList = true :=
  source_keys_have_namespace [(aLbl, caC)] "spectree__dup".toList
    ⟨aLbl, true, "DEPRECATED old one".toList⟩ (by decide)

/-- C10.  The matcher accepts mismatched quote delimiters: an identifier
opened with a double quote and closed with a single quote (and a description
quoted the other way round) is still extracted. -/
theorem mismatched_quotes_accepted :
    extract_tools_from_source [("m.ts".toList, c10text)] =
      [("spectree__mix".toList,
        ⟨"m.ts".toList, false, "Mixed quote demo".toList⟩)] := by
  decide

/-- C6.  With files processed in sorted-by-label order, a duplicate identifier
ends up with the later-sorted file's record: registering `k` in both `a.ts`
and `b.ts` leaves `b.ts`'s record (hence its deprecation flag) in the final
mapping. -/
theorem duplicate_keeps_later_sorted_file (ca cb k : List Char)
    (ha : hasKey k (fileDict aLbl ca) = true)
    (hb : hasKey k (fileDict bLbl cb) = true) :
    dlookup k (extract_tools_from_source [(bLbl, cb), (aLbl, ca)]) =
      dlookup k (fileDict bLbl cb) := by
  have hba : lexLe bLbl aLbl = false := by decide
  have hsort : sortIns (fun p q => lexLe p.1 q.1) [(bLbl, cb), (aLbl, ca)] =
      [(aLbl, ca), (bLbl, cb)] := by
    simp [sortIns, insSorted, hba]
  have hext : extract_tools_from_source [(bLbl, cb), (aLbl, ca)] =
      writeAll (writeAll [] (extractFile aLbl ca)) (extractFile bLbl cb) := by
    rw [extract_tools_from_source, hsort]
    rfl
  rw [hext, dlookup_writeAll]
  have hsome : (dlookup k (writeAll [] (extractFile bLbl cb))).isSome = true := hb
  cases hl : dlookup k (writeAll [] (extractFile bLbl cb)) with
  | none => rw [hl] at hsome; simp at hsome
  | some v =>
    have hfd : dlookup k (fileDict bLbl cb) = some v := hl
    rw [hfd]
    rfl

/-- Witness for C6: `a.ts` registers `spectree__dup` as deprecated, `b.ts`
registers it clean; the final mapping has `b.ts`'s record. -/
theorem duplicate_keeps_later_sorted_file_witness :
    hasKey "spectree__dup".toList (fileDict aLbl caC) = true ∧
    hasKey "spectree__dup".toList (fileDict bLbl cbC) = true ∧
    dlookup "spectree__dup".toList (extract_tools_from_source [(bLbl, cbC), (aLbl, caC)]) =
      dlookup "spectree__dup".toList (fileDict bLbl cbC) :=
  ⟨by decide, by decide,
    duplicate_keeps_later_sorted_file caC cbC "spectree__dup".toList
      (by decide) (by decide)⟩

/-- C9.  Each document contributes its label exactly once to the document set
of every identifier it mentions, however many times the mention occurs. -/
theorem doc_label_recorded_once (docs : List (List Char × List Char))
    (hnd : (List.map Prod.fst docs).Nodup) (l t : List Char) (hm : (l, t) ∈ docs)
    (n : List Char) (hn : n ∈ mset t) :
    List.count l (dget (extract_tools_from_docs docs) n) = 1 := by
  have hperm := sortIns_perm (fun p q => lexLe p.1 q.1) docs
  have hnd2 : (List.map Prod.fst (sortIns (fun p q => lexLe p.1 q.1) docs)).Nodup :=
    ((hperm.map Prod.fst).symm).nodup hnd
  have hm2 : (l, t) ∈ sortIns (fun p q => lexLe p.1 q.1) docs := hperm.mem_iff.mpr hm
  have hfold := dget_foldl_docs (sortIns (fun p q => lexLe p.1 q.1) docs) [] n
  have hget : dget (extract_tools_from_docs docs) n =
      List.filterMap (fun dt => if n ∈ mset dt.2 then some dt.1 else none)
        (sortIns (fun p q => lexLe p.1 q.1) docs) := by
    rw [extract_tools_from_docs, hfold]
    rfl
  rw [hget]
  exact count_filterMap_one _ hnd2 hm2 hn

/-- Witness for C9: a document mentioning `spectree__alpha` three times
contributes its label once. -/
theorem doc_label_recorded_once_witness :
    List.count "guide.md".toList
      (dget (extract_tools_from_docs
        [("guide.md".toList, d1C), ("intro.md".toList, d2C)]) "spectree__alpha".toList) = 1 :=
  doc_label_recorded_once [("guide.md".toList, d1C), ("intro.md".toList, d2C)]
    (by decide) "guide.md".toList d1C (by decide) "spectree__alpha".toList (by decide)

/-- C5.  In the name-extraction variant a record is deprecated exactly when
`DEPRECATED` occurs before the first occurrence of the tool's name in the
file, rather than in a window after the match. -/
theorem names_variant_deprecated_before_name (p c : List Char) (r : NameRec)
    (h : r ∈ extractNamesFile p c) :
    ∃ k, r.name <+: List.drop k c ∧ (∀ j, j < k → ¬ r.name <+: List.drop j c) ∧
      (r.deprecated = true ↔ deprLit <:+: List.take k c) := by
  obtain ⟨n, hn, hf⟩ := List.mem_filterMap.mp h
  split at hf
  · have hr : r = ⟨n, p, strIn deprLit (pySliceTo c (pyFindI n c))⟩ :=
      (Option.some.inj hf).symm
    have hstep : ∀ s (a : List Char) r2, matchAtN s = some (a, r2) →
        r2 <:+ s ∧ r2.length < s.length := by
      intro s a r2 h2
      exact ⟨(matchAtN_some h2).2.1, (matchAtN_some h2).2.2⟩
    obtain ⟨t, rr, ht, hmN⟩ := mem_scanWith matchAtN hstep _ _ _ hn
    have hinf : n <:+: c := (matchAtN_some hmN).1.trans ht.isInfix
    obtain ⟨pre2, post2, hpp⟩ := hinf
    have hdrop : n <+: List.drop pre2.length c := by
      have hc : c = pre2 ++ (n ++ post2) := by rw [← hpp]; simp
      rw [hc, List.drop_left]
      exact ⟨post2, rfl⟩
    have hsome := pyFind_isSome hdrop
    obtain ⟨k0, hk0⟩ := Option.isSome_iff_exists.mp hsome
    obtain ⟨hk1, hk2⟩ := pyFind_some hk0
    have hslice : pySliceTo c (pyFindI n c) = List.take k0 c := by
      rw [pyFindI, hk0]
      simp [pySliceTo]
    refine ⟨k0, ?_, ?_, ?_⟩
    · rw [hr]; exact hk1
    · intro j hj
      rw [hr]
      exact hk2 j hj
    · rw [hr]
      show strIn deprLit (pySliceTo c (pyFindI n c)) = true ↔ _
      rw [hslice, strIn_iff]
  · simp at hf

/-- Witness for C5: `DEPRECATED` on the first line marks the later
registration of `spectree__legacy` deprecated. -/
theorem names_variant_deprecated_before_name_witness :
    ∃ k, ("spectree__legacy".toList : List Char) <+: List.drop k c5C ∧
      (∀ j, j < k → ¬ ("spectree__legacy".toList : List Char) <+: List.drop j c5C) ∧
      ((true : Bool) = true ↔ deprLit <:+: List.take k c5C) := by
  have h := names_variant_deprecated_before_name "l.ts".toList c5C
    ⟨"spectree__legacy".toList, "l.ts".toList, true⟩ (by decide)
  simpa using h

/-- C3 (counterexample).  `cexText` contains a perfectly well-shaped
registration construct for `cexName` — whitespace-separated, namespace
identifier, brace gap without any `}` — yet the extractor records nothing for
it, because an earlier partial registration consumes past it. -/
theorem construct_swallowed_by_earlier_match :
    cexText = cexPre ++
      (regConstruct [] dq cexName dq [' '] [] [' '] dq ("Short".toList) ++ ")".toList) ∧
    (∀ x ∈ ([' '] : List Char), isWs x = true) ∧
    isQuote dq = true ∧
    cexName ≠ [] ∧ (∀ x ∈ cexName, nonQ x = true) ∧ litPre nsLit cexName = true ∧
    (∀ x ∈ ([] : List Char), x ≠ rbrace) ∧
    "Short".toList ≠ [] ∧ (∀ x ∈ "Short".toList, nonQ x = true) ∧
    hasKey cexName (extract_tools_from_source [("f.ts".toList, cexText)]) = false := by
  decide

/-- C3 (amended).  If no position before the construct begins a successful
match, a registration construct whose parts are separated by whitespace,
newlines and unmatched braces in the gap is recognised and yields a record
for its identifier. -/
theorem construct_reaches_mapping (pre ws1 ws2 mid ws3 : List Char) (q1 q2 q3 : Char)
    (name desc tail f : List Char)
    (hws1 : ∀ x ∈ ws1, isWs x = true) (hws2 : ∀ x ∈ ws2, isWs x = true)
    (hws3 : ∀ x ∈ ws3, isWs x = true)
    (hq1 : isQuote q1 = true) (hq2 : isQuote q2 = true) (hq3 : isQuote q3 = true)
    (hname : name ≠ []) (hnq : ∀ x ∈ name, nonQ x = true)
    (hns : litPre nsLit name = true)
    (hmid : ∀ x ∈ mid, x ≠ rbrace)
    (hdesc : desc ≠ []) (hdq : ∀ x ∈ desc, nonQ x = true)
    (hclear : ∀ i, i < pre.length →
      matchAt (List.drop i
        (pre ++ (regConstruct ws1 q1 name q2 ws2 mid ws3 q3 desc ++ tail))) = none) :
    hasKey name (extract_tools_from_source
      [(f, pre ++ (regConstruct ws1 q1 name q2 ws2 mid ws3 q3 desc ++ tail))]) = true := by
  obtain ⟨d, r, hm⟩ := matchAt_construct tail hws1 hws2 hws3 hq1 hq2 hq3 hname hnq hmid hdesc hdq
  have hscan : scanRegs (pre ++ (regConstruct ws1 q1 name q2 ws2 mid ws3 q3 desc ++ tail)) 0 =
      scanRegs (regConstruct ws1 q1 name q2 ws2 mid ws3 q3 desc ++ tail) (0 + pre.length) :=
    scanRegs_append_none pre _ 0 hclear
  generalize hE : regConstruct ws1 q1 name q2 ws2 mid ws3 q3 desc ++ tail = T at hm hscan ⊢
  cases T with
  | nil => simp [matchAt, dropLit, regLit] at hm
  | cons c cs =>
    rw [scanRegs_cons_some hm] at hscan
    have hmem : (0 + pre.length, name, d) ∈ scanRegs (pre ++ c :: cs) 0 := by
      rw [hscan]
      exact List.mem_cons_self _ _
    have hrec : (name, mkRec f (pre ++ c :: cs) (0 + pre.length) d) ∈
        extractFile f (pre ++ c :: cs) :=
      mem_extractFile.mpr ⟨0 + pre.length, d, hmem, hns, rfl⟩
    have hext : extract_tools_from_source [(f, pre ++ c :: cs)] =
        writeAll [] (extractFile f (pre ++ c :: cs)) := rfl
    rw [hext]
    exact hasKey_writeAll_of_mem (Or.inl ⟨_, hrec⟩)

/-- Witness for the amended C3: after a benign two-character prefix, a
construct with whitespace, a gapped brace and a namespaced identifier is
recorded. -/
theorem construct_reaches_mapping_witness :
    hasKey wit3Name (extract_tools_from_source [("w.ts".toList, wit3Text)]) = true := by
  have h := construct_reaches_mapping ("x\n".toList) [' '] [' '] wit3Mid [' '] dq dq dq
    wit3Name wit3Desc (")".toList) ("w.ts".toList)
    (by decide) (by decide) (by decide) (by decide) (by decide) (by decide)
    (by decide) (by decide) (by decide) (by decide) (by decide) (by decide)
    (by decide)
  exact h
